import Mathlib

/-!
Verification of the concurrent FIFO queue library in `HW4/hw4q2.go`.

The Go file defines two interchangeable queue implementations:

* `TwoLockQueue` – a two-lock blocking queue (Figure 29.9 style) over
  singly linked `tlqNode` cells (`val int`, `next *tlqNode`), with a
  dummy sentinel node at the head;
* `MSQueue` – the Michael and Scott lock-free queue over `lfNode` cells
  (`val int`, `next atomic.Pointer[lfNode]`), also seeded with a dummy
  sentinel, using compare-and-swap on the `next` fields and on the
  `head`/`tail` pointers;

plus a benchmark harness (`runProducers`, `runConsumers`, `main`).

The embedding below is a sequential (one operation at a time, run to
completion) shallow embedding.  Pointers are modelled as optional
addresses (`Option Nat`, `none` standing for the Go `nil`) into an
explicit heap, which is a list of node records; allocation appends a
fresh node at the end of the list.  The mutex acquire and release in
the two-lock queue serialize the critical sections and are no-ops in a
sequential run; the atomic loads and compare-and-swap operations of the
lock-free queue are modelled literally as reads and conditional writes
on the heap.  The retry loops of the lock-free queue are given explicit
fuel; exhausting the fuel (or dereferencing a `nil` pointer) yields
`none`.
-/

/-- A linked-list cell.  Both Go node types, `tlqNode` and `lfNode`,
have the same shape: an `int` value and a possibly-nil pointer to the
next cell. -/
structure Node where
  val : Int
  next : Option Nat
  deriving Repr, DecidableEq

/-- The heap: node cells addressed by their index.  Allocation appends
at the end, so every address ever handed out is below the current
length. -/
abbrev Heap := List Node

/-- Dereference an address.  Under the representation invariant every
dereferenced address is in bounds; the default cell is never reached in
any proof below. -/
def Heap.get (h : Heap) (a : Nat) : Node :=
  h.getD a { val := 0, next := none }

/-- Allocate a fresh cell, returning the new heap and the address. -/
def Heap.alloc (h : Heap) (n : Node) : Heap × Nat :=
  (h ++ [n], h.length)

/-- Write the `next` field of the cell at address `a`. -/
def Heap.setNext (h : Heap) (a : Nat) (nx : Option Nat) : Heap :=
  h.set a { h.get a with next := nx }

/-- `CompareAndSwap` on the `next` field of the cell at address `a`:
if it currently equals `old`, replace it by `new` and report success. -/
def Heap.casNext (h : Heap) (a : Nat) (old new : Option Nat) : Heap × Bool :=
  if (h.get a).next = old then (h.setNext a new, true) else (h, false)

/-- `h.chain a l` says that starting from the cell at `a` the `next`
pointers run exactly through the addresses in `l` and then hit `nil`. -/
def Heap.chain (h : Heap) : Nat → List Nat → Bool
  | a, [] => (h.get a).next = none
  | a, b :: bs => ((h.get a).next = some b) && h.chain b bs

/-- The values stored at a list of addresses. -/
def Heap.vals (h : Heap) (l : List Nat) : List Int :=
  l.map fun a => (h.get a).val

/-! ## The two-lock queue (`TwoLockQueue` in the Go source)

The Go struct holds `head`, `tail` (plain pointers) and the two
mutexes.  The mutexes only serialize the two critical sections and
carry no data, so the sequential state is the heap plus the two
pointers. -/

structure TwoLockQueue where
  heap : Heap
  head : Option Nat
  tail : Option Nat
  deriving Repr, DecidableEq

/-- `NewTwoLockQueue`: allocate a dummy node (zero value: `val = 0`,
`next = nil`) and point both `head` and `tail` at it. -/
def NewTwoLockQueue : TwoLockQueue :=
  let (h, dummy) := Heap.alloc [] { val := 0, next := none }
  { heap := h, head := some dummy, tail := some dummy }

/-- `TwoLockQueue.Enqueue`: allocate `n := &tlqNode{val: v}`, lock the
tail mutex, set `q.tail.next = n`, `q.tail = n`, unlock.  Dereferencing
a nil `tail` would crash, modelled by `none`. -/
def TwoLockQueue.Enqueue (q : TwoLockQueue) (v : Int) : Option TwoLockQueue := do
  let (h1, n) := q.heap.alloc { val := v, next := none }
  let tailAddr ← q.tail
  let h2 := h1.setNext tailAddr (some n)
  some { heap := h2, head := q.head, tail := some n }

/-- `TwoLockQueue.Dequeue`: lock the head mutex, read `h := q.head`,
`n := h.next`; if `n` is nil, unlock and return `(0, false)`; otherwise
read `v := n.val`, advance `q.head = n`, unlock, return `(v, true)`. -/
def TwoLockQueue.Dequeue (q : TwoLockQueue) : Option (TwoLockQueue × Int × Bool) := do
  let hAddr ← q.head
  match (q.heap.get hAddr).next with
  | none => some (q, 0, false)
  | some nAddr =>
    let v := (q.heap.get nAddr).val
    some ({ heap := q.heap, head := some nAddr, tail := q.tail }, v, true)

/-! ## The Michael and Scott lock-free queue (`MSQueue` in the Go source) -/

structure MSQueue where
  heap : Heap
  head : Option Nat
  tail : Option Nat
  deriving Repr, DecidableEq

/-- `NewMSQueue`: allocate a dummy node and store it into both atomic
pointers. -/
def NewMSQueue : MSQueue :=
  let (h, dummy) := Heap.alloc [] { val := 0, next := none }
  { heap := h, head := some dummy, tail := some dummy }

/-- The retry loop of `MSQueue.Enqueue`, with the node at address `n`
already allocated.  Each iteration: load `tail`, load `tail.next`,
re-check `tail == q.tail.Load()`; if `next` is nil, try to CAS-link the
new node and on success CAS-swing `q.tail` to it; otherwise CAS-help
`q.tail` forward to `next` and retry. -/
def MSQueue.enqueueLoop (q : MSQueue) (n : Nat) : Nat → Option MSQueue
  | 0 => none
  | fuel + 1 => do
    let tail := q.tail
    let tailAddr ← tail
    let next := (q.heap.get tailAddr).next
    if tail = q.tail then
      match next with
      | none =>
        let (h1, ok) := q.heap.casNext tailAddr none (some n)
        if ok then
          some { heap := h1, head := q.head,
                 tail := if q.tail = tail then some n else q.tail }
        else
          MSQueue.enqueueLoop { heap := h1, head := q.head, tail := q.tail } n fuel
      | some nx =>
        MSQueue.enqueueLoop
          { heap := q.heap, head := q.head,
            tail := if q.tail = tail then some nx else q.tail } n fuel
    else
      MSQueue.enqueueLoop q n fuel

/-- `MSQueue.Enqueue`: allocate `n := &lfNode{val: v}` and run the
retry loop. -/
def MSQueue.Enqueue (q : MSQueue) (v : Int) (fuel : Nat) : Option MSQueue :=
  let (h1, n) := q.heap.alloc { val := v, next := none }
  MSQueue.enqueueLoop { heap := h1, head := q.head, tail := q.tail } n fuel

/-- The retry loop of `MSQueue.Dequeue`.  Each iteration: load `head`,
`tail`, `head.next`, re-check `head == q.head.Load()`; if `next` is nil
return `(0, false)`; if `head == tail` CAS-help the tail forward and
retry; otherwise read `next.val` and try to CAS `q.head` forward. -/
def MSQueue.dequeueLoop (q : MSQueue) : Nat → Option (MSQueue × Int × Bool)
  | 0 => none
  | fuel + 1 => do
    let head := q.head
    let tail := q.tail
    let headAddr ← head
    let next := (q.heap.get headAddr).next
    if head = q.head then
      match next with
      | none => some (q, 0, false)
      | some nx =>
        if head = tail then
          MSQueue.dequeueLoop
            { heap := q.heap, head := q.head,
              tail := if q.tail = tail then some nx else q.tail } fuel
        else
          let v := (q.heap.get nx).val
          if q.head = head then
            some ({ heap := q.heap, head := some nx, tail := q.tail }, v, true)
          else
            MSQueue.dequeueLoop q fuel
    else
      MSQueue.dequeueLoop q fuel

/-- `MSQueue.Dequeue`, with fuel for the retry loop. -/
def MSQueue.Dequeue (q : MSQueue) (fuel : Nat) : Option (MSQueue × Int × Bool) :=
  MSQueue.dequeueLoop q fuel

/-! ## Representation invariant

The state of either queue is faithful to a list of element addresses:
`head` points at the sentinel cell `s`, the `next` pointers chain from
`s` exactly through `addrs`, `tail` points at the last cell of that
chain, the addresses are strictly increasing (allocation order) and in
bounds. -/

def QueueRep (h : Heap) (hd tl : Option Nat) (s : Nat) (addrs : List Nat) : Prop :=
  hd = some s ∧
  tl = some (addrs.getLastD s) ∧
  h.chain s addrs = true ∧
  (s :: addrs).Pairwise (· < ·) ∧
  ∀ a ∈ s :: addrs, a < h.length

instance (h : Heap) (hd tl : Option Nat) (s : Nat) (addrs : List Nat) :
    Decidable (QueueRep h hd tl s addrs) := by
  unfold QueueRep; infer_instance

/-- Abstraction relation for the two-lock queue: `xs` is the list of
logical queue contents, oldest first. -/
def TLQAbs (q : TwoLockQueue) (xs : List Int) : Prop :=
  ∃ s addrs, QueueRep q.heap q.head q.tail s addrs ∧ xs = q.heap.vals addrs

/-- Abstraction relation for the lock-free queue. -/
def MSAbs (q : MSQueue) (xs : List Int) : Prop :=
  ∃ s addrs, QueueRep q.heap q.head q.tail s addrs ∧ xs = q.heap.vals addrs

/-! ## Operation sequences

A sequential client applies `Enqueue` and `Dequeue` operations one
after another through the common `Queue` interface of the Go file.  A
run records the `(value, found)` result of every `Dequeue`. -/

inductive QOp where
  | enq (v : Int)
  | deq
  deriving Repr, DecidableEq

/-- Whether an operation is an `Enqueue`. -/
def QOp.isEnq : QOp → Bool
  | QOp.enq _ => true
  | QOp.deq => false

/-- Run a sequence of operations against a `TwoLockQueue`, collecting
the results of the dequeues in order. -/
def TwoLockQueue.runOps (q : TwoLockQueue) :
    List QOp → Option (TwoLockQueue × List (Int × Bool))
  | [] => some (q, [])
  | QOp.enq v :: ops => do
    let q1 ← q.Enqueue v
    TwoLockQueue.runOps q1 ops
  | QOp.deq :: ops => do
    let (q1, v, ok) ← q.Dequeue
    let (q2, outs) ← TwoLockQueue.runOps q1 ops
    some (q2, (v, ok) :: outs)

/-- Run a sequence of operations against an `MSQueue`, giving each
operation `fuel` iterations of its retry loop. -/
def MSQueue.runOps (fuel : Nat) (q : MSQueue) :
    List QOp → Option (MSQueue × List (Int × Bool))
  | [] => some (q, [])
  | QOp.enq v :: ops => do
    let q1 ← q.Enqueue v fuel
    MSQueue.runOps fuel q1 ops
  | QOp.deq :: ops => do
    let (q1, v, ok) ← q.Dequeue fuel
    let (q2, outs) ← MSQueue.runOps fuel q1 ops
    some (q2, (v, ok) :: outs)

/-- The specification-level queue: a plain list, oldest element first.
Enqueue appends; dequeue removes the front, returning `(0, false)` on
the empty queue.  This is the exact-FIFO reference model. -/
def fifoRun (xs : List Int) : List QOp → List Int × List (Int × Bool)
  | [] => (xs, [])
  | QOp.enq v :: ops => fifoRun (xs ++ [v]) ops
  | QOp.deq :: ops =>
    match xs with
    | [] =>
      let (ys, outs) := fifoRun [] ops
      (ys, (0, false) :: outs)
    | x :: rest =>
      let (ys, outs) := fifoRun rest ops
      (ys, (x, true) :: outs)

/-- Number of dequeues that returned `found = true` in a run. -/
def deqSuccesses (outs : List (Int × Bool)) : Nat :=
  (outs.filter fun p => p.2).length

/-- Number of enqueue operations in a sequence. -/
def enqCount (ops : List QOp) : Nat :=
  (ops.filter QOp.isEnq).length

/-! ## The consumer backoff state machine (`runConsumers` in the Go source)

Per loop iteration the consumer calls `Dequeue`; on success it bumps
`DeqOK` and resets `spin`; on an empty miss it bumps `DeqEmpty`,
increments `spin`, and backs off: `runtime.Gosched()` while
`spin < 50`, otherwise `time.Sleep(time.Microsecond)` followed by a
reset of `spin` once `spin > 1000`. -/

structure ConsumerState where
  deqOK : Nat
  deqEmpty : Nat
  spin : Nat
  deriving Repr, DecidableEq

/-- The backoff action taken on an empty miss: yield the processor or
sleep for one microsecond. -/
inductive Backoff where
  | yield
  | sleep
  deriving Repr, DecidableEq

/-- One iteration of the consumer loop body, given whether `Dequeue`
found an item. -/
def consumerStep (ok : Bool) (s : ConsumerState) : ConsumerState × Option Backoff :=
  if ok then
    ({ s with deqOK := s.deqOK + 1, spin := 0 }, none)
  else
    let spin1 := s.spin + 1
    if spin1 < 50 then
      ({ s with deqEmpty := s.deqEmpty + 1, spin := spin1 }, some Backoff.yield)
    else
      ({ s with deqEmpty := s.deqEmpty + 1,
                spin := if spin1 > 1000 then 0 else spin1 }, some Backoff.sleep)

/-! ## Configuration handling (`main` in the Go source)

`main` reads the flags, then switches on the queue-kind selector:
`"lock"` and `"ms"` build a queue, anything else panics immediately,
before any seeding or benchmark activity.  The producer and consumer
counts are read but never validated. -/

structure Config where
  queueType : String
  producers : Int
  consumers : Int
  deriving Repr, DecidableEq

inductive QueueKind where
  | lock
  | ms
  deriving Repr, DecidableEq

/-- The `switch *queueType` at the top of `main`: the default branch
panics with the message below; the other two branches construct the
chosen queue.  The counts play no part. -/
def mainStartup (cfg : Config) : Except String QueueKind :=
  match cfg.queueType with
  | "lock" => Except.ok QueueKind.lock
  | "ms" => Except.ok QueueKind.ms
  | _ => Except.error "unknown -q type (use lock or ms)"

/-! ## Heap lemmas -/

theorem Heap.get_append_lt {h : Heap} {a : Nat} (ha : a < h.length) (n : Node) :
    (h ++ [n]).get a = h.get a := by
  unfold Heap.get
  exact List.getD_append h [n] _ a ha

theorem Heap.get_append_len (h : Heap) (n : Node) :
    (h ++ [n]).get h.length = n := by
  simp [Heap.get, List.getD_append_right _ _ _ _ (le_refl h.length)]

theorem Heap.get_setNext_self {h : Heap} {a : Nat} (ha : a < h.length)
    (nx : Option Nat) :
    (h.setNext a nx).get a = { h.get a with next := nx } := by
  simp [Heap.get, Heap.setNext, List.getD_eq_getElem?_getD,
    List.getElem?_set_self ha]

theorem Heap.get_setNext_ne {h : Heap} {a b : Nat} (hab : a ≠ b)
    (nx : Option Nat) :
    (h.setNext a nx).get b = h.get b := by
  simp [Heap.get, Heap.setNext, List.getD_eq_getElem?_getD,
    List.getElem?_set_ne hab]

theorem Heap.length_setNext (h : Heap) (a : Nat) (nx : Option Nat) :
    (h.setNext a nx).length = h.length := by
  simp [Heap.setNext]

theorem List.getLastD_snoc (l : List Nat) (x d : Nat) :
    (l ++ [x]).getLastD d = x := by
  induction l generalizing d with
  | nil => rfl
  | cons a l ih =>
    rw [List.cons_append, List.getLastD_cons]
    exact ih a

/-- The last cell of a chain has a nil `next` pointer. -/
theorem Heap.chain_last_next {h : Heap} :
    ∀ {s : Nat} {addrs : List Nat}, h.chain s addrs = true →
      (h.get (addrs.getLastD s)).next = none := by
  intro s addrs
  induction addrs generalizing s with
  | nil =>
    intro hc
    simpa [Heap.chain] using hc
  | cons b bs ih =>
    intro hc
    simp only [Heap.chain, Bool.and_eq_true, decide_eq_true_eq] at hc
    rw [List.getLastD_cons]
    exact ih hc.2

/-- A chain only depends on the `next` fields of its own cells. -/
theorem Heap.chain_congr {h1 h2 : Heap} :
    ∀ {s : Nat} {addrs : List Nat},
      (∀ a ∈ s :: addrs, (h2.get a).next = (h1.get a).next) →
      h1.chain s addrs = true → h2.chain s addrs = true := by
  intro s addrs
  induction addrs generalizing s with
  | nil =>
    intro hsame hc
    simp only [Heap.chain, decide_eq_true_eq] at hc ⊢
    rw [hsame s (by simp)]
    exact hc
  | cons b bs ih =>
    intro hsame hc
    simp only [Heap.chain, Bool.and_eq_true, decide_eq_true_eq] at hc ⊢
    refine ⟨?_, ih ?_ hc.2⟩
    · rw [hsame s (by simp)]; exact hc.1
    · intro a ha
      exact hsame a (by simpa using Or.inr (by simpa using ha))

/-- Extending a chain by one cell: in the new heap the old last cell
points at `n` and `n` is terminal, while all other chain cells kept
their `next` fields. -/
theorem Heap.chain_snoc {h1 h2 : Heap} {n : Nat} :
    ∀ {s : Nat} {addrs : List Nat},
      h1.chain s addrs = true →
      (s :: addrs).Pairwise (· < ·) →
      (∀ a ∈ s :: addrs, a ≠ addrs.getLastD s →
        (h2.get a).next = (h1.get a).next) →
      (h2.get (addrs.getLastD s)).next = some n →
      (h2.get n).next = none →
      h2.chain s (addrs ++ [n]) = true := by
  intro s addrs
  induction addrs generalizing s with
  | nil =>
    intro _ _ _ hlast hn
    simp only [List.nil_append, Heap.chain, Bool.and_eq_true, decide_eq_true_eq]
    exact ⟨hlast, hn⟩
  | cons b bs ih =>
    intro hc hp hsame hlast hn
    have hcb : h1.chain b bs = true := by
      simp only [Heap.chain, Bool.and_eq_true, decide_eq_true_eq] at hc
      exact hc.2
    have hsb : (h1.get s).next = some b := by
      simp only [Heap.chain, Bool.and_eq_true, decide_eq_true_eq] at hc
      exact hc.1
    have hlast_mem : (b :: bs).getLastD s ∈ b :: bs := by
      rw [List.getLastD_cons]
      exact List.getLastD_mem_cons bs b
    have hs_ne : s ≠ (b :: bs).getLastD s := by
      have := (List.pairwise_cons.mp hp).1 _ hlast_mem
      omega
    simp only [List.cons_append, Heap.chain, Bool.and_eq_true, decide_eq_true_eq]
    constructor
    · rw [hsame s (by simp) hs_ne]
      exact hsb
    · refine ih hcb (List.pairwise_cons.mp hp).2 ?_ ?_ hn
      · intro a ha hane
        refine hsame a (by simp [ha]) ?_
        rw [List.getLastD_cons]
        exact hane
      · rw [List.getLastD_cons] at hlast
        exact hlast

/-! ## Representation lemmas -/

/-- Both enqueue paths build the same heap: allocate a fresh cell
holding `v`, then point the old last cell at it.  This preserves the
representation and appends `v` to the logical contents. -/
theorem QueueRep.enqueue_heap {h : Heap} {hd tl : Option Nat} {s : Nat}
    {addrs : List Nat} (hr : QueueRep h hd tl s addrs) (v : Int)
    {t n : Nat} (ht_def : t = addrs.getLastD s) (hn_def : n = h.length) :
    QueueRep ((h ++ [({ val := v, next := none } : Node)]).setNext t (some n))
      hd (some n) s (addrs ++ [n]) ∧
    ((h ++ [({ val := v, next := none } : Node)]).setNext t (some n)).vals
        (addrs ++ [n])
      = h.vals addrs ++ [v] := by
  obtain ⟨hhd, htl, hchain, hpw, hbound⟩ := hr
  subst ht_def
  set t := addrs.getLastD s with ht_def
  set h1 : Heap := h ++ [({ val := v, next := none } : Node)] with h1_def
  set h2 : Heap := h1.setNext t (some n) with h2_def
  have ht_mem : t ∈ s :: addrs := List.getLastD_mem_cons addrs s
  have ht_lt : t < h.length := hbound t ht_mem
  have ht_ne_n : t ≠ n := by omega
  have h1len : h1.length = h.length + 1 := by simp [h1_def]
  have h2len : h2.length = h.length + 1 := by
    rw [h2_def, Heap.length_setNext, h1len]
  have hget_old : ∀ a, a < h.length → a ≠ t → h2.get a = h.get a := by
    intro a halt hane
    rw [h2_def, Heap.get_setNext_ne (fun he => hane he.symm),
      h1_def, Heap.get_append_lt halt]
  have hget_t : h2.get t = { h.get t with next := some n } := by
    rw [h2_def, Heap.get_setNext_self (by omega), h1_def,
      Heap.get_append_lt ht_lt]
  have hget_n : h2.get n = { val := v, next := none } := by
    rw [h2_def, Heap.get_setNext_ne ht_ne_n, h1_def, hn_def,
      Heap.get_append_len]
  have hval_pres : ∀ a, a < h.length → (h2.get a).val = (h.get a).val := by
    intro a halt
    by_cases hat : a = t
    · subst hat; rw [hget_t]
    · rw [hget_old a halt hat]
  have hchain2 : h2.chain s (addrs ++ [n]) = true := by
    refine Heap.chain_snoc hchain hpw ?_ ?_ ?_
    · intro a ha hane
      rw [hget_old a (hbound a ha) hane]
    · rw [← ht_def, hget_t]
    · rw [hget_n]
  refine ⟨⟨hhd, ?_, hchain2, ?_, ?_⟩, ?_⟩
  · rw [List.getLastD_snoc]
  · have hsplit : s :: (addrs ++ [n]) = (s :: addrs) ++ [n] := by simp
    rw [hsplit, List.pairwise_append]
    refine ⟨hpw, List.pairwise_singleton _ _, ?_⟩
    intro a ha b hb
    have hb' : b = n := by simpa using hb
    have := hbound a ha
    omega
  · intro a ha
    rw [h2len]
    rcases List.mem_cons.mp ha with rfl | ha2
    · have := hbound a (by simp)
      omega
    · rcases List.mem_append.mp ha2 with ha3 | ha4
      · have := hbound a (List.mem_cons_of_mem s ha3)
        omega
      · have : a = n := by simpa using ha4
        omega
  · rw [Heap.vals, Heap.vals, List.map_append]
    congr 1
    · refine List.map_congr_left ?_
      intro a ha
      exact hval_pres a (hbound a (List.mem_cons_of_mem s ha))
    · simp [Heap.vals, hget_n]

/-! ## Two-lock queue step lemmas -/

theorem TLQAbs.enqueue_tlq {q : TwoLockQueue} {xs : List Int} (habs : TLQAbs q xs)
    (v : Int) :
    ∃ q2, q.Enqueue v = some q2 ∧ TLQAbs q2 (xs ++ [v]) := by
  obtain ⟨s, addrs, hr, hxs⟩ := habs
  have htl : q.tail = some (addrs.getLastD s) := hr.2.1
  obtain ⟨hrep2, hvals2⟩ := QueueRep.enqueue_heap hr v rfl rfl
  refine ⟨TwoLockQueue.mk
      ((q.heap ++ [({ val := v, next := none } : Node)]).setNext
        (addrs.getLastD s) (some q.heap.length))
      q.head (some q.heap.length), ?_, ?_⟩
  · unfold TwoLockQueue.Enqueue Heap.alloc
    rw [htl]
    rfl
  · exact ⟨s, addrs ++ [q.heap.length], hrep2, by rw [hvals2, hxs]⟩

theorem TLQAbs.dequeue_nil_tlq {q : TwoLockQueue} (habs : TLQAbs q []) :
    q.Dequeue = some (q, 0, false) := by
  obtain ⟨s, addrs, hr, hxs⟩ := habs
  have haddrs : addrs = [] := by
    cases addrs with
    | nil => rfl
    | cons a l => simp [Heap.vals] at hxs
  subst haddrs
  have hhd : q.head = some s := hr.1
  have hnext : (q.heap.get s).next = none := by
    have hc := hr.2.2.1
    simpa [Heap.chain] using hc
  unfold TwoLockQueue.Dequeue
  rw [hhd]
  show (match (q.heap.get s).next with
    | none => some (q, 0, false)
    | some nAddr => some ({ heap := q.heap, head := some nAddr, tail := q.tail },
        (q.heap.get nAddr).val, true)) = some (q, 0, false)
  rw [hnext]

theorem TLQAbs.dequeue_cons_tlq {q : TwoLockQueue} {x : Int} {xs : List Int}
    (habs : TLQAbs q (x :: xs)) :
    ∃ q2, q.Dequeue = some (q2, x, true) ∧ TLQAbs q2 xs := by
  obtain ⟨s, addrs, hr, hxs⟩ := habs
  cases addrs with
  | nil => simp [Heap.vals] at hxs
  | cons a rest =>
    obtain ⟨hhd, htl, hchain, hpw, hbound⟩ := hr
    have hnext : (q.heap.get s).next = some a := by
      simp only [Heap.chain, Bool.and_eq_true, decide_eq_true_eq] at hchain
      exact hchain.1
    have hchain_a : q.heap.chain a rest = true := by
      simp only [Heap.chain, Bool.and_eq_true, decide_eq_true_eq] at hchain
      exact hchain.2
    have hx : x = (q.heap.get a).val := by
      simp only [Heap.vals, List.map_cons, List.cons.injEq] at hxs
      exact hxs.1
    have hxs2 : xs = q.heap.vals rest := by
      simp only [Heap.vals, List.map_cons, List.cons.injEq] at hxs
      exact hxs.2
    refine ⟨{ heap := q.heap, head := some a, tail := q.tail }, ?_, ?_⟩
    · unfold TwoLockQueue.Dequeue
      rw [hhd]
      show (match (q.heap.get s).next with
        | none => some (q, 0, false)
        | some nAddr => some ({ heap := q.heap, head := some nAddr, tail := q.tail },
            (q.heap.get nAddr).val, true)) = _
      rw [hnext, hx]
    · refine ⟨a, rest, ⟨rfl, ?_, hchain_a, (List.pairwise_cons.mp hpw).2, ?_⟩, hxs2⟩
      · rw [htl, List.getLastD_cons]
      · intro b hb
        exact hbound b (List.mem_cons_of_mem s hb)

/-! ## Lock-free queue step lemmas

Run sequentially, each retry loop returns on its first iteration: the
consistency re-checks compare a pointer with itself and every CAS finds
the value it just read. -/

theorem MSQueue.enqueueLoop_step {qh : Heap} {hd tl : Option Nat} {t n : Nat}
    (htl : tl = some t) (hnext : (qh.get t).next = none) (fuel : Nat) :
    MSQueue.enqueueLoop ⟨qh, hd, tl⟩ n (fuel + 1)
      = some ⟨qh.setNext t (some n), hd, some n⟩ := by
  subst htl
  rw [MSQueue.enqueueLoop]
  simp [Heap.casNext, hnext]

theorem MSQueue.dequeueLoop_empty {qh : Heap} {hd tl : Option Nat} {s : Nat}
    (hhd : hd = some s) (hnext : (qh.get s).next = none) (fuel : Nat) :
    MSQueue.dequeueLoop ⟨qh, hd, tl⟩ (fuel + 1)
      = some (⟨qh, hd, tl⟩, 0, false) := by
  subst hhd
  rw [MSQueue.dequeueLoop]
  simp [hnext]

theorem MSQueue.dequeueLoop_cons {qh : Heap} {hd tl : Option Nat} {s t a : Nat}
    (hhd : hd = some s) (htl : tl = some t) (hst : s ≠ t)
    (hnext : (qh.get s).next = some a) (fuel : Nat) :
    MSQueue.dequeueLoop ⟨qh, hd, tl⟩ (fuel + 1)
      = some (⟨qh, some a, tl⟩, (qh.get a).val, true) := by
  subst hhd
  subst htl
  rw [MSQueue.dequeueLoop]
  simp [hnext, hst]

theorem MSAbs.enqueue_ms {q : MSQueue} {xs : List Int} (habs : MSAbs q xs)
    (v : Int) (fuel : Nat) :
    ∃ q2, q.Enqueue v (fuel + 1) = some q2 ∧ MSAbs q2 (xs ++ [v]) := by
  obtain ⟨s, addrs, hr, hxs⟩ := habs
  have htl : q.tail = some (addrs.getLastD s) := hr.2.1
  have hlt : addrs.getLastD s < q.heap.length :=
    hr.2.2.2.2 _ (List.getLastD_mem_cons addrs s)
  have hnext : ((q.heap ++ [({ val := v, next := none } : Node)]).get
      (addrs.getLastD s)).next = none := by
    rw [Heap.get_append_lt hlt]
    exact Heap.chain_last_next hr.2.2.1
  obtain ⟨hrep2, hvals2⟩ := QueueRep.enqueue_heap hr v rfl rfl
  refine ⟨MSQueue.mk
      ((q.heap ++ [({ val := v, next := none } : Node)]).setNext
        (addrs.getLastD s) (some q.heap.length))
      q.head (some q.heap.length), ?_, ?_⟩
  · unfold MSQueue.Enqueue Heap.alloc
    exact MSQueue.enqueueLoop_step htl hnext fuel
  · exact ⟨s, addrs ++ [q.heap.length], hrep2, by rw [hvals2, hxs]⟩

theorem MSAbs.dequeue_nil_ms {q : MSQueue} (habs : MSAbs q []) (fuel : Nat) :
    q.Dequeue (fuel + 1) = some (q, 0, false) := by
  obtain ⟨s, addrs, hr, hxs⟩ := habs
  have haddrs : addrs = [] := by
    cases addrs with
    | nil => rfl
    | cons a l => simp [Heap.vals] at hxs
  subst haddrs
  have hnext : (q.heap.get s).next = none := by
    have hc := hr.2.2.1
    simpa [Heap.chain] using hc
  unfold MSQueue.Dequeue
  have := @MSQueue.dequeueLoop_empty q.heap q.head q.tail s hr.1 hnext fuel
  simpa using this

theorem MSAbs.dequeue_cons_ms {q : MSQueue} {x : Int} {xs : List Int}
    (habs : MSAbs q (x :: xs)) (fuel : Nat) :
    ∃ q2, q.Dequeue (fuel + 1) = some (q2, x, true) ∧ MSAbs q2 xs := by
  obtain ⟨s, addrs, hr, hxs⟩ := habs
  cases addrs with
  | nil => simp [Heap.vals] at hxs
  | cons a rest =>
    obtain ⟨hhd, htl, hchain, hpw, hbound⟩ := hr
    have hnext : (q.heap.get s).next = some a := by
      simp only [Heap.chain, Bool.and_eq_true, decide_eq_true_eq] at hchain
      exact hchain.1
    have hchain_a : q.heap.chain a rest = true := by
      simp only [Heap.chain, Bool.and_eq_true, decide_eq_true_eq] at hchain
      exact hchain.2
    have hx : x = (q.heap.get a).val := by
      simp only [Heap.vals, List.map_cons, List.cons.injEq] at hxs
      exact hxs.1
    have hxs2 : xs = q.heap.vals rest := by
      simp only [Heap.vals, List.map_cons, List.cons.injEq] at hxs
      exact hxs.2
    have hst : s ≠ (a :: rest).getLastD s := by
      have hmem : (a :: rest).getLastD s ∈ a :: rest := by
        rw [List.getLastD_cons]
        exact List.getLastD_mem_cons rest a
      have := (List.pairwise_cons.mp hpw).1 _ hmem
      omega
    refine ⟨MSQueue.mk q.heap (some a) q.tail, ?_, ?_⟩
    · unfold MSQueue.Dequeue
      have hstep := MSQueue.dequeueLoop_cons hhd htl hst hnext fuel
      rw [hx]
      simpa using hstep
    · refine ⟨a, rest, ⟨rfl, ?_, hchain_a, (List.pairwise_cons.mp hpw).2, ?_⟩, hxs2⟩
      · rw [htl, List.getLastD_cons]
      · intro b hb
        exact hbound b (List.mem_cons_of_mem s hb)

/-! ## Run-level simulation -/

theorem TLQAbs.runOps_sim_tlq :
    ∀ (ops : List QOp) (q : TwoLockQueue) (xs : List Int), TLQAbs q xs →
      ∃ q2, q.runOps ops = some (q2, (fifoRun xs ops).2) ∧
        TLQAbs q2 (fifoRun xs ops).1 := by
  intro ops
  induction ops with
  | nil =>
    intro q xs habs
    exact ⟨q, rfl, habs⟩
  | cons op ops ih =>
    intro q xs habs
    cases op with
    | enq v =>
      obtain ⟨q1, he, habs1⟩ := TLQAbs.enqueue_tlq habs v
      obtain ⟨q2, hrun, habs2⟩ := ih q1 (xs ++ [v]) habs1
      refine ⟨q2, ?_, habs2⟩
      show (q.Enqueue v).bind (fun q1 => q1.runOps ops) = _
      rw [he, Option.some_bind, hrun]
      rfl
    | deq =>
      cases xs with
      | nil =>
        have hdq := TLQAbs.dequeue_nil_tlq habs
        obtain ⟨q2, hrun, habs2⟩ := ih q [] habs
        refine ⟨q2, ?_, habs2⟩
        simp [TwoLockQueue.runOps, hdq, hrun, fifoRun]
      | cons x rest =>
        obtain ⟨q1, hdq, habs1⟩ := TLQAbs.dequeue_cons_tlq habs
        obtain ⟨q2, hrun, habs2⟩ := ih q1 rest habs1
        refine ⟨q2, ?_, habs2⟩
        simp [TwoLockQueue.runOps, hdq, hrun, fifoRun]

theorem MSAbs.runOps_sim_ms :
    ∀ (ops : List QOp) (fuel : Nat) (q : MSQueue) (xs : List Int), MSAbs q xs →
      ∃ q2, MSQueue.runOps (fuel + 1) q ops = some (q2, (fifoRun xs ops).2) ∧
        MSAbs q2 (fifoRun xs ops).1 := by
  intro ops
  induction ops with
  | nil =>
    intro fuel q xs habs
    exact ⟨q, rfl, habs⟩
  | cons op ops ih =>
    intro fuel q xs habs
    cases op with
    | enq v =>
      obtain ⟨q1, he, habs1⟩ := MSAbs.enqueue_ms habs v fuel
      obtain ⟨q2, hrun, habs2⟩ := ih fuel q1 (xs ++ [v]) habs1
      refine ⟨q2, ?_, habs2⟩
      show (q.Enqueue v (fuel + 1)).bind (fun q1 => MSQueue.runOps (fuel + 1) q1 ops) = _
      rw [he, Option.some_bind, hrun]
      rfl
    | deq =>
      cases xs with
      | nil =>
        have hdq := MSAbs.dequeue_nil_ms habs fuel
        obtain ⟨q2, hrun, habs2⟩ := ih fuel q [] habs
        refine ⟨q2, ?_, habs2⟩
        simp [MSQueue.runOps, hdq, hrun, fifoRun]
      | cons x rest =>
        obtain ⟨q1, hdq, habs1⟩ := MSAbs.dequeue_cons_ms habs fuel
        obtain ⟨q2, hrun, habs2⟩ := ih fuel q1 rest habs1
        refine ⟨q2, ?_, habs2⟩
        simp [MSQueue.runOps, hdq, hrun, fifoRun]

theorem TLQAbs.new_tlq : TLQAbs NewTwoLockQueue [] := ⟨0, [], by decide, by decide⟩

theorem MSAbs.new_ms : MSAbs NewMSQueue [] := ⟨0, [], by decide, by decide⟩

/-! ## Counting lemmas over the reference model -/

theorem fifoRun_conservation :
    ∀ (ops : List QOp) (xs : List Int),
      deqSuccesses (fifoRun xs ops).2 + (fifoRun xs ops).1.length
        = xs.length + enqCount ops := by
  intro ops
  induction ops with
  | nil =>
    intro xs
    simp [fifoRun, deqSuccesses, enqCount]
  | cons op ops ih =>
    intro xs
    cases op with
    | enq v =>
      have h := ih (xs ++ [v])
      simp only [fifoRun, enqCount, List.filter_cons, QOp.isEnq] at h ⊢
      simp at h ⊢
      omega
    | deq =>
      cases xs with
      | nil =>
        have h := ih []
        rcases hf : fifoRun [] ops with ⟨ys, outs⟩
        rw [hf] at h
        simp only [fifoRun, hf, enqCount, deqSuccesses, List.filter_cons,
          QOp.isEnq] at h ⊢
        simp at h ⊢
        omega
      | cons x rest =>
        have h := ih rest
        rcases hf : fifoRun rest ops with ⟨ys, outs⟩
        rw [hf] at h
        simp only [fifoRun, hf, enqCount, deqSuccesses, List.filter_cons,
          QOp.isEnq] at h ⊢
        simp at h ⊢
        omega

/-! ## Repeated dequeues on an empty queue -/

theorem TLQAbs.deq_replicate_tlq {q : TwoLockQueue} (habs : TLQAbs q []) :
    ∀ k, q.runOps (List.replicate k QOp.deq)
      = some (q, List.replicate k ((0 : Int), false)) := by
  intro k
  induction k with
  | zero => rfl
  | succ k ih =>
    have hdq := TLQAbs.dequeue_nil_tlq habs
    simp [List.replicate_succ, TwoLockQueue.runOps, hdq, ih]

theorem MSAbs.deq_replicate_ms {q : MSQueue} (habs : MSAbs q []) (fuel : Nat) :
    ∀ k, MSQueue.runOps (fuel + 1) q (List.replicate k QOp.deq)
      = some (q, List.replicate k ((0 : Int), false)) := by
  intro k
  induction k with
  | zero => rfl
  | succ k ih =>
    have hdq := MSAbs.dequeue_nil_ms habs fuel
    simp [List.replicate_succ, MSQueue.runOps, hdq, ih]

/-! ## Values returned on an empty miss -/

theorem TwoLockQueue.dequeue_false_val :
    ∀ (q q2 : TwoLockQueue) (v : Int),
      q.Dequeue = some (q2, v, false) → v = 0 := by
  intro q q2 v h
  unfold TwoLockQueue.Dequeue at h
  cases hh : q.head with
  | none =>
    rw [hh] at h
    simp at h
  | some s =>
    rw [hh] at h
    simp only [Option.bind_eq_bind, Option.some_bind] at h
    cases hn : (q.heap.get s).next with
    | none =>
      rw [hn] at h
      simp at h
      exact h.2.symm
    | some a =>
      rw [hn] at h
      simp at h

theorem MSQueue.dequeueLoop_false_val :
    ∀ (fuel : Nat) (q q2 : MSQueue) (v : Int),
      MSQueue.dequeueLoop q fuel = some (q2, v, false) → v = 0 := by
  intro fuel
  induction fuel with
  | zero =>
    intro q q2 v h
    simp [MSQueue.dequeueLoop] at h
  | succ fuel ih =>
    intro q q2 v h
    rw [MSQueue.dequeueLoop] at h
    cases hh : q.head with
    | none =>
      rw [hh] at h
      simp at h
    | some s =>
      rw [hh] at h
      simp only [Option.bind_eq_bind, Option.some_bind, if_pos] at h
      cases hn : (q.heap.get s).next with
      | none =>
        rw [hn] at h
        simp at h
        exact h.2.symm
      | some nx =>
        rw [hn] at h
        split at h
        · simp at h
          exact h.2.symm
        · split at h
          · exact ih _ _ _ h
          · simp at h

/-! ## The claims -/

/-- C1: for every sequence of Enqueue and Dequeue operations applied
one after another to a fresh TwoLockQueue, the run succeeds and the
dequeue results are exactly those of the exact-FIFO reference model:
each Dequeue returns the oldest not-yet-dequeued value with
`found = true`, and returns `found = false` precisely when no element
remains; the final state still represents the model queue. -/
theorem claim_C1_twolock_exact_fifo (ops : List QOp) :
    ∃ q2, NewTwoLockQueue.runOps ops = some (q2, (fifoRun [] ops).2) ∧
      TLQAbs q2 (fifoRun [] ops).1 :=
  TLQAbs.runOps_sim_tlq ops NewTwoLockQueue [] TLQAbs.new_tlq

/-- C2: the two implementations are observationally equivalent: on any
operation sequence run sequentially from the fresh queues, every
Dequeue returns the same (value, found) pair in both (any positive
retry fuel suffices for the lock-free queue). -/
theorem claim_C2_observational_equivalence (ops : List QOp) (fuel : Nat) :
    ∃ qT qM outs,
      NewTwoLockQueue.runOps ops = some (qT, outs) ∧
      MSQueue.runOps (fuel + 1) NewMSQueue ops = some (qM, outs) := by
  obtain ⟨qT, hT, _⟩ := TLQAbs.runOps_sim_tlq ops NewTwoLockQueue [] TLQAbs.new_tlq
  obtain ⟨qM, hM, _⟩ := MSAbs.runOps_sim_ms ops fuel NewMSQueue [] MSAbs.new_ms
  exact ⟨qT, qM, (fifoRun [] ops).2, hT, hM⟩

/-- C3: any number of Dequeue operations on a freshly constructed,
never-enqueued queue (either implementation) all return
`(0, found = false)` and leave the state exactly unchanged. -/
theorem claim_C3_empty_dequeue_no_effect (k fuel : Nat) :
    NewTwoLockQueue.runOps (List.replicate k QOp.deq)
      = some (NewTwoLockQueue, List.replicate k ((0 : Int), false)) ∧
    MSQueue.runOps (fuel + 1) NewMSQueue (List.replicate k QOp.deq)
      = some (NewMSQueue, List.replicate k ((0 : Int), false)) :=
  ⟨TLQAbs.deq_replicate_tlq TLQAbs.new_tlq k, MSAbs.deq_replicate_ms MSAbs.new_ms fuel k⟩

/-- C6: conservation, for both implementations on any operation
sequence: the number of successful dequeues plus the number of elements
still in the queue equals the number of enqueues, hence successful
dequeues never exceed enqueues, and once the queue is drained the two
counts are equal.  No linked element is lost and none is dequeued
twice. -/
theorem claim_C6_conservation (ops : List QOp) :
    ∃ qT qM xs outs,
      NewTwoLockQueue.runOps ops = some (qT, outs) ∧
      MSQueue.runOps 1 NewMSQueue ops = some (qM, outs) ∧
      TLQAbs qT xs ∧ MSAbs qM xs ∧
      deqSuccesses outs + xs.length = enqCount ops ∧
      deqSuccesses outs ≤ enqCount ops ∧
      (xs = [] → deqSuccesses outs = enqCount ops) := by
  obtain ⟨qT, hT, hTabs⟩ := TLQAbs.runOps_sim_tlq ops NewTwoLockQueue [] TLQAbs.new_tlq
  obtain ⟨qM, hM, hMabs⟩ := MSAbs.runOps_sim_ms ops 0 NewMSQueue [] MSAbs.new_ms
  have hc := fifoRun_conservation ops []
  refine ⟨qT, qM, (fifoRun [] ops).1, (fifoRun [] ops).2, hT, hM, hTabs, hMabs,
    ?_, ?_, ?_⟩
  · simpa using hc
  · have hc2 : deqSuccesses (fifoRun [] ops).2 + (fifoRun [] ops).1.length
        = enqCount ops := by simpa using hc
    omega
  · intro hnil
    rw [hnil] at hc
    simpa using hc

/-- C10 (implicit): whenever either Dequeue reports `found = false`,
the value component of the result is exactly 0. -/
theorem claim_C10_notfound_value_zero :
    (∀ (q q2 : TwoLockQueue) (v : Int),
      q.Dequeue = some (q2, v, false) → v = 0) ∧
    (∀ (q : MSQueue) (fuel : Nat) (q2 : MSQueue) (v : Int),
      q.Dequeue fuel = some (q2, v, false) → v = 0) :=
  ⟨TwoLockQueue.dequeue_false_val,
   fun q fuel q2 v h => MSQueue.dequeueLoop_false_val fuel q q2 v h⟩

/-- C10 witness: both fresh queues report `found = false` with value 0. -/
theorem claim_C10_witness : (0 : Int) = 0 ∧ (0 : Int) = 0 :=
  ⟨claim_C10_notfound_value_zero.1 NewTwoLockQueue NewTwoLockQueue 0 (by decide),
   claim_C10_notfound_value_zero.2 NewMSQueue 1 NewMSQueue 0 (by decide)⟩

/-- C4: the lock-free queue invariant: it holds of `NewMSQueue`, is
preserved by every completed Enqueue and Dequeue (run to completion,
any positive fuel), and implies that `head` and `tail` are never nil,
that `tail` points at the last linked node, and that `tail.next` is nil
at quiescence. -/
theorem claim_C4_ms_invariant :
    (∃ s addrs, QueueRep NewMSQueue.heap NewMSQueue.head NewMSQueue.tail s addrs) ∧
    (∀ (q : MSQueue) (v : Int) (fuel : Nat),
      (∃ s addrs, QueueRep q.heap q.head q.tail s addrs) →
      ∃ q2, q.Enqueue v (fuel + 1) = some q2 ∧
        ∃ s addrs, QueueRep q2.heap q2.head q2.tail s addrs) ∧
    (∀ (q : MSQueue) (fuel : Nat),
      (∃ s addrs, QueueRep q.heap q.head q.tail s addrs) →
      ∃ q2 v ok, q.Dequeue (fuel + 1) = some (q2, v, ok) ∧
        ∃ s addrs, QueueRep q2.heap q2.head q2.tail s addrs) ∧
    (∀ (q : MSQueue) (s : Nat) (addrs : List Nat),
      QueueRep q.heap q.head q.tail s addrs →
      q.head ≠ none ∧ q.tail ≠ none ∧
      q.tail = some (addrs.getLastD s) ∧
      (q.heap.get (addrs.getLastD s)).next = none) := by
  refine ⟨⟨0, [], by decide⟩, ?_, ?_, ?_⟩
  · intro q v fuel hrep
    obtain ⟨s, addrs, hr⟩ := hrep
    obtain ⟨q2, he, s2, addrs2, hr2, _⟩ := MSAbs.enqueue_ms ⟨s, addrs, hr, rfl⟩ v fuel
    exact ⟨q2, he, s2, addrs2, hr2⟩
  · intro q fuel hrep
    obtain ⟨s, addrs, hr⟩ := hrep
    cases addrs with
    | nil =>
      have hdq := MSAbs.dequeue_nil_ms ⟨s, [], hr, rfl⟩ fuel
      exact ⟨q, 0, false, hdq, s, [], hr⟩
    | cons a rest =>
      obtain ⟨q2, hdq, s2, addrs2, hr2, _⟩ :=
        @MSAbs.dequeue_cons_ms q ((q.heap.get a).val) (q.heap.vals rest)
          ⟨s, a :: rest, hr, rfl⟩ fuel
      exact ⟨q2, (q.heap.get a).val, true, hdq, s2, addrs2, hr2⟩
  · intro q s addrs hr
    refine ⟨by rw [hr.1]; exact Option.some_ne_none s,
      by rw [hr.2.1]; exact Option.some_ne_none _, hr.2.1, ?_⟩
    exact Heap.chain_last_next hr.2.2.1

/-- C4 witness: the invariant holds of the fresh queue and is preserved
by one Enqueue on it. -/
theorem claim_C4_witness :
    ∃ q2, NewMSQueue.Enqueue 7 1 = some q2 ∧
      ∃ s addrs, QueueRep q2.heap q2.head q2.tail s addrs :=
  claim_C4_ms_invariant.2.1 NewMSQueue 7 0 ⟨0, [], by decide⟩

/-- C5: the two-lock queue sentinel invariant: it holds of
`NewTwoLockQueue`, is preserved by every Enqueue and Dequeue, and says
that `head` always points at a dummy sentinel cell whose `next` is the
first logical element (or nil when the queue is empty); a successful
Dequeue returns the value of the cell after the sentinel, never the
sentinel value itself, and makes that cell the new sentinel. -/
theorem claim_C5_tlq_sentinel :
    (∃ s addrs, QueueRep NewTwoLockQueue.heap NewTwoLockQueue.head
      NewTwoLockQueue.tail s addrs) ∧
    (∀ (q : TwoLockQueue) (v : Int),
      (∃ s addrs, QueueRep q.heap q.head q.tail s addrs) →
      ∃ q2, q.Enqueue v = some q2 ∧
        ∃ s addrs, QueueRep q2.heap q2.head q2.tail s addrs) ∧
    (∀ (q : TwoLockQueue),
      (∃ s addrs, QueueRep q.heap q.head q.tail s addrs) →
      ∃ q2 v ok, q.Dequeue = some (q2, v, ok) ∧
        ∃ s addrs, QueueRep q2.heap q2.head q2.tail s addrs) ∧
    (∀ (q : TwoLockQueue) (s : Nat) (addrs : List Nat),
      QueueRep q.heap q.head q.tail s addrs →
      q.head = some s ∧ (q.heap.get s).next = addrs.head?) ∧
    (∀ (q : TwoLockQueue) (s : Nat) (addrs : List Nat) (q2 : TwoLockQueue)
      (v : Int), QueueRep q.heap q.head q.tail s addrs →
      q.Dequeue = some (q2, v, true) →
      ∃ a, (q.heap.get s).next = some a ∧ v = (q.heap.get a).val ∧
        q2.head = some a) := by
  refine ⟨⟨0, [], by decide⟩, ?_, ?_, ?_, ?_⟩
  · intro q v hrep
    obtain ⟨s, addrs, hr⟩ := hrep
    obtain ⟨q2, he, s2, addrs2, hr2, _⟩ := TLQAbs.enqueue_tlq ⟨s, addrs, hr, rfl⟩ v
    exact ⟨q2, he, s2, addrs2, hr2⟩
  · intro q hrep
    obtain ⟨s, addrs, hr⟩ := hrep
    cases addrs with
    | nil =>
      have hdq := TLQAbs.dequeue_nil_tlq ⟨s, [], hr, rfl⟩
      exact ⟨q, 0, false, hdq, s, [], hr⟩
    | cons a rest =>
      obtain ⟨q2, hdq, s2, addrs2, hr2, _⟩ :=
        @TLQAbs.dequeue_cons_tlq q ((q.heap.get a).val) (q.heap.vals rest)
          ⟨s, a :: rest, hr, rfl⟩
      exact ⟨q2, (q.heap.get a).val, true, hdq, s2, addrs2, hr2⟩
  · intro q s addrs hr
    refine ⟨hr.1, ?_⟩
    cases addrs with
    | nil =>
      have hc := hr.2.2.1
      simpa [Heap.chain] using hc
    | cons a rest =>
      have hc := hr.2.2.1
      simp only [Heap.chain, Bool.and_eq_true, decide_eq_true_eq] at hc
      simpa using hc.1
  · intro q s addrs q2 v hr hdq
    have hhd : q.head = some s := hr.1
    unfold TwoLockQueue.Dequeue at hdq
    rw [hhd] at hdq
    simp only [Option.bind_eq_bind, Option.some_bind] at hdq
    cases hn : (q.heap.get s).next with
    | none =>
      rw [hn] at hdq
      simp at hdq
    | some a =>
      rw [hn] at hdq
      simp at hdq
      exact ⟨a, rfl, hdq.2.symm, by rw [← hdq.1]⟩

/-- C5 witness: the sentinel invariant holds of the fresh queue and is
preserved by one Enqueue on it. -/
theorem claim_C5_witness :
    ∃ q2, NewTwoLockQueue.Enqueue 5 = some q2 ∧
      ∃ s addrs, QueueRep q2.heap q2.head q2.tail s addrs :=
  claim_C5_tlq_sentinel.2.1 NewTwoLockQueue 5 ⟨0, [], by decide⟩

/-- C7: frame property of the two-lock queue: a completed Enqueue never
changes the `head` pointer field and a completed Dequeue never changes
the `tail` pointer field, on every state, including the empty and
single-element states. -/
theorem claim_C7_tlq_frame :
    (∀ (q : TwoLockQueue) (v : Int) (q2 : TwoLockQueue),
      q.Enqueue v = some q2 → q2.head = q.head) ∧
    (∀ (q q2 : TwoLockQueue) (v : Int) (ok : Bool),
      q.Dequeue = some (q2, v, ok) → q2.tail = q.tail) := by
  constructor
  · intro q v q2 h
    unfold TwoLockQueue.Enqueue Heap.alloc at h
    cases hh : q.tail with
    | none =>
      rw [hh] at h
      simp at h
    | some t =>
      rw [hh] at h
      simp only [Option.bind_eq_bind, Option.some_bind] at h
      injection h with h2
      rw [← h2]
  · intro q q2 v ok h
    unfold TwoLockQueue.Dequeue at h
    cases hh : q.head with
    | none =>
      rw [hh] at h
      simp at h
    | some s =>
      rw [hh] at h
      simp only [Option.bind_eq_bind, Option.some_bind] at h
      cases hn : (q.heap.get s).next with
      | none =>
        rw [hn] at h
        simp at h
        rw [← h.1]
      | some a =>
        rw [hn] at h
        simp at h
        rw [← h.1]

/-- C7 witness: one Enqueue and one (empty) Dequeue on the fresh queue
leave the head and tail fields as stated. -/
theorem claim_C7_witness :
    (TwoLockQueue.mk [Node.mk 0 (some 1), Node.mk 3 none] (some 0)
        (some 1)).head = NewTwoLockQueue.head ∧
    NewTwoLockQueue.tail = NewTwoLockQueue.tail :=
  ⟨claim_C7_tlq_frame.1 NewTwoLockQueue 3 _ (by decide),
   claim_C7_tlq_frame.2 NewTwoLockQueue NewTwoLockQueue 0 false (by decide)⟩

/-- C8: the consumer backoff state machine: a found item bumps `DeqOK`
and resets the consecutive-miss counter; an empty miss bumps `DeqEmpty`
and the miss counter; below the yield threshold of 50 consecutive
misses the consumer only yields, from 50 on it sleeps instead, and the
miss counter resets to zero after the sleep that pushes it past 1000
(a bounded number of sleeps), staying at or below 1000 forever. -/
theorem claim_C8_consumer_backoff (b : Bool) (s : ConsumerState) :
    consumerStep true s = ({ s with deqOK := s.deqOK + 1, spin := 0 }, none) ∧
    (consumerStep false s).1.deqEmpty = s.deqEmpty + 1 ∧
    (consumerStep false s).1.deqOK = s.deqOK ∧
    (s.spin + 1 < 50 → consumerStep false s
      = ({ s with deqEmpty := s.deqEmpty + 1, spin := s.spin + 1 },
          some Backoff.yield)) ∧
    (50 ≤ s.spin + 1 → (consumerStep false s).2 = some Backoff.sleep) ∧
    (1000 < s.spin + 1 → (consumerStep false s).1.spin = 0) ∧
    (50 ≤ s.spin + 1 → s.spin + 1 ≤ 1000 →
      (consumerStep false s).1.spin = s.spin + 1) ∧
    (s.spin ≤ 1000 → (consumerStep b s).1.spin ≤ 1000) := by
  refine ⟨rfl, ?_, ?_, ?_, ?_, ?_, ?_, ?_⟩
  · by_cases h50 : s.spin + 1 < 50 <;> simp [consumerStep, h50]
  · by_cases h50 : s.spin + 1 < 50 <;> simp [consumerStep, h50]
  · intro h
    simp [consumerStep, h]
  · intro h
    have h50 : ¬ (s.spin + 1 < 50) := by omega
    simp [consumerStep, h50]
  · intro h
    have h50 : ¬ (s.spin + 1 < 50) := by omega
    simp [consumerStep, h50, h]
  · intro h1 h2
    have h50 : ¬ (s.spin + 1 < 50) := by omega
    have hk : ¬ (1000 < s.spin + 1) := by omega
    simp [consumerStep, h50, hk]
  · intro h
    cases b with
    | true => simp [consumerStep]
    | false =>
      by_cases h50 : s.spin + 1 < 50
      · simp [consumerStep, h50]
        omega
      · by_cases hk : 1000 < s.spin + 1
        · simp [consumerStep, h50, hk]
        · simp [consumerStep, h50, hk]
          omega

/-- C8 witness: at 49 prior consecutive misses the 50th miss sleeps. -/
theorem claim_C8_witness :
    (consumerStep false (ConsumerState.mk 0 0 49)).2 = some Backoff.sleep :=
  (claim_C8_consumer_backoff false (ConsumerState.mk 0 0 49)).2.2.2.2.1
    (by decide)

/-- C9 counterexample: a configuration with a known queue kind but a
negative producer count (and negative consumer count) is accepted by
the startup switch; the program does not fail fatally, contradicting
the claim that invalid counts are fatal at startup. -/
theorem claim_C9_counterexample :
    mainStartup (Config.mk "lock" (-1) (-1)) = Except.ok QueueKind.lock ∧
    (-1 : Int) < 0 :=
  ⟨rfl, by decide⟩

/-- C9 (amended): startup fails fatally, before any benchmark step,
exactly when the queue-kind selector is not one of the two known kinds;
the producer and consumer counts are never validated. -/
theorem claim_C9_startup_validation (cfg : Config) :
    (mainStartup cfg = Except.error "unknown -q type (use lock or ms)" ↔
      cfg.queueType ≠ "lock" ∧ cfg.queueType ≠ "ms") ∧
    (cfg.queueType = "lock" → mainStartup cfg = Except.ok QueueKind.lock) ∧
    (cfg.queueType = "ms" → mainStartup cfg = Except.ok QueueKind.ms) := by
  obtain ⟨qt, p, c⟩ := cfg
  by_cases h1 : qt = "lock"
  · subst h1
    simp [mainStartup]
  · by_cases h2 : qt = "ms"
    · subst h2
      simp [mainStartup]
    · have he : mainStartup (Config.mk qt p c)
          = Except.error "unknown -q type (use lock or ms)" := by
        unfold mainStartup
        split
        · simp_all
        · simp_all
        · rfl
      simp [he, h1, h2]

/-- C9 witness: an unknown selector is rejected at startup. -/
theorem claim_C9_witness :
    mainStartup (Config.mk "bogus" 4 4)
      = Except.error "unknown -q type (use lock or ms)" :=
  (claim_C9_startup_validation (Config.mk "bogus" 4 4)).1.mpr
    (by decide)

/-- C6 witness: conservation on the concrete run enqueue 1 then
dequeue. -/
theorem claim_C6_witness :
    ∃ qT qM xs outs,
      NewTwoLockQueue.runOps [QOp.enq 1, QOp.deq] = some (qT, outs) ∧
      MSQueue.runOps 1 NewMSQueue [QOp.enq 1, QOp.deq] = some (qM, outs) ∧
      TLQAbs qT xs ∧ MSAbs qM xs ∧
      deqSuccesses outs + xs.length = enqCount [QOp.enq 1, QOp.deq] ∧
      deqSuccesses outs ≤ enqCount [QOp.enq 1, QOp.deq] ∧
      (xs = [] → deqSuccesses outs = enqCount [QOp.enq 1, QOp.deq]) :=
  claim_C6_conservation [QOp.enq 1, QOp.deq]
